import Mathlib

/-!
Verification development for the tsdate evaluation harness.

The Python sources are shallowly embedded: tree sequences become explicit
structures of local trees, sites and mutations; NumPy floats become real
numbers; NumPy half-to-even rounding and Python `round` become `pyRound`
on rationals; Python `dict` assignment becomes an association-list update;
randomness (`np.random.choice`, `np.random.shuffle`) becomes oracle
parameters constrained by permutation hypotheses; assertions and raised
exceptions become `Option`/`Except` results.
-/

namespace TsdateEval

/-- Python `round` and `np.round`: round half to even, as an integer. -/
def pyRound (q : ℚ) : ℤ :=
  if q - (⌊q⌋ : ℚ) < 1/2 then ⌊q⌋
  else if 1/2 < q - (⌊q⌋ : ℚ) then ⌊q⌋ + 1
  else if 2 ∣ ⌊q⌋ then ⌊q⌋ else ⌊q⌋ + 1

/-- NumPy indexing of a length-`n` array by a possibly negative index:
a negative index `i` reads position `n + i` (so `dates[-1]` is the last entry). -/
def npIndex (n : ℕ) (dates : ℤ → ℝ) (i : ℤ) : ℝ :=
  if i < 0 then dates ((n : ℤ) + i) else dates i

/-- A mutation record: the node the allele change is attached to. -/
structure Mut where
  node : ℕ
  deriving DecidableEq

/-- A site: a genomic position with its (time-ordered) mutations. -/
structure Site where
  position : ℚ
  mutations : List Mut
  deriving DecidableEq

/-- A local tree of a tree sequence: `parent` follows tskit conventions
(`-1` marks a node with no parent), `time` gives node times, `nn` is the
number of nodes, and `sites` lists the sites falling in the tree's interval. -/
structure LocalTree where
  nn : ℕ
  parent : ℕ → ℤ
  time : ℕ → ℝ
  sites : List Site

/-- A tree sequence, as consumed by the comparison routines: node count,
the breakpoint coordinates returned by `ts.breakpoints()`, and the local
trees returned by `ts.trees()` in genome order. -/
structure TS where
  num_nodes : ℕ
  breakpoints : List ℚ
  trees : List LocalTree

/-- Association-list model of Python `dict` assignment `d[k] = v`:
replace the first binding of `k`, else append a new binding. -/
def dictSet : List (ℚ × WithBot ℝ) → ℚ → WithBot ℝ → List (ℚ × WithBot ℝ)
  | [], k, v => [(k, v)]
  | p :: rest, k, v => if p.1 = k then (k, v) :: rest else p :: dictSet rest k v

/-- Association-list model of Python `dict` lookup `d[k]` (the harness only
reads keys it has written, so the default `⊥` is never observed). -/
def dictGet : List (ℚ × WithBot ℝ) → ℚ → WithBot ℝ
  | [], _ => ⊥
  | p :: rest, k => if p.1 = k then p.2 else dictGet rest k

/-- One iteration of the inner mutation loop of `get_mut_ages_dict`
(src/utility.py lines 28-36): skip the mutation when `exclude_root` is set
and its tree parent is node `num_nodes - 1`; otherwise take the geometric
mean of the mutation-node date and the tree-parent date and keep it if it
beats the current value at the site's position. `-np.inf` is modelled by
`⊥` in `WithBot ℝ`. -/
noncomputable def site_step (nn : ℕ) (dates : ℤ → ℝ) (exclude_root : Bool)
    (t : LocalTree) (pos : ℚ) (d : List (ℚ × WithBot ℝ)) (m : Mut) :
    List (ℚ × WithBot ℝ) :=
  let parent_node := t.parent m.node
  if exclude_root ∧ parent_node = (nn : ℤ) - 1 then d
  else
    let parent_age := npIndex nn dates parent_node
    let mut_age := Real.sqrt (npIndex nn dates (m.node : ℤ) * parent_age)
    if dictGet d pos < (mut_age : WithBot ℝ) then dictSet d pos (mut_age : WithBot ℝ) else d

/-- Embedding of `get_mut_ages_dict` (src/utility.py lines 23-37): walk the
local trees in genome order; for each site first set its entry to `-inf`
(here `⊥`), then fold the mutation loop over the site's mutations. -/
noncomputable def get_mut_ages_dict (ts : TS) (dates : ℤ → ℝ) (exclude_root : Bool) :
    List (ℚ × WithBot ℝ) :=
  ts.trees.foldl (fun d t =>
    t.sites.foldl (fun d s =>
      s.mutations.foldl (site_step ts.num_nodes dates exclude_root t s.position)
        (dictSet d s.position ⊥)) d) []

/-- Geometric-mean age of one mutation in `get_mut_ages_dict`:
`np.sqrt(dates[mut.node] * dates[tree.parent(mut.node)])`. -/
noncomputable def mut_age (nn : ℕ) (dates : ℤ → ℝ) (t : LocalTree) (m : Mut) : ℝ :=
  Real.sqrt (npIndex nn dates (m.node : ℤ) * npIndex nn dates (t.parent m.node))

/-- Whether a mutation survives the `exclude_root` filter of
`get_mut_ages_dict`: it is skipped exactly when `exclude_root` is set and
its tree parent is node `num_nodes - 1`. -/
def mutKept (nn : ℕ) (exclude_root : Bool) (t : LocalTree) (m : Mut) : Bool :=
  decide (¬(exclude_root ∧ t.parent m.node = (nn : ℤ) - 1))

/-- The aggregate age `get_mut_ages_dict` ends up recording for one site:
the maximum over the kept mutations of their geometric-mean age, starting
from `-inf` (`⊥`). -/
noncomputable def site_age (nn : ℕ) (dates : ℤ → ℝ) (exclude_root : Bool)
    (t : LocalTree) (s : Site) : WithBot ℝ :=
  ((s.mutations.filter (mutKept nn exclude_root t)).map
    (fun m => ((mut_age nn dates t m : ℝ) : WithBot ℝ))).foldl max ⊥

/-- All (tree, site) pairs visited by the nested loops of
`get_mut_ages_dict`, in visit order. -/
def sitePairs (ts : TS) : List (LocalTree × Site) :=
  (ts.trees.map (fun t => t.sites.map (fun s => (t, s)))).flatten

/-- The tree sequence with every mutation whose tree parent is node
`num_nodes - 1` removed; used to state what `exclude_root=True` filters. -/
def dropLastNodeMuts (ts : TS) : TS :=
  { ts with trees := ts.trees.map (fun t =>
      { t with sites := t.sites.map (fun s =>
          { s with mutations := s.mutations.filter (mutKept ts.num_nodes true t) }) }) }

/-- Embedding of `get_mut_pos_df` (src/utility.py lines 39-46): build the
table from the per-site age dictionary, round the positions to integers
(NumPy half-to-even), stable-sort the rows by age in descending order
(`kind="mergesort"` is a stable sort; the stable insertion sort used here
has the same semantics), group by rounded position in ascending order and
keep the first row of each group. -/
noncomputable def get_mut_pos_df (ts : TS) (dates : ℤ → ℝ) (exclude_root : Bool) :
    List (ℤ × WithBot ℝ) :=
  let rows := (get_mut_ages_dict ts dates exclude_root).map (fun p => (pyRound p.1, p.2))
  let sorted := List.insertionSort (fun a b : ℤ × WithBot ℝ => b.2 ≤ a.2) rows
  ((rows.map Prod.fst).toFinset.sort (· ≤ ·)).map
    (fun k => (k, ((sorted.find? (fun r => decide (r.1 = k))).map Prod.snd).getD ⊥))

/-- The rounded-position rows that `get_mut_pos_df` builds before sorting. -/
noncomputable def mutPosRows (ts : TS) (dates : ℤ → ℝ) (exclude_root : Bool) :
    List (ℤ × WithBot ℝ) :=
  (get_mut_ages_dict ts dates exclude_root).map (fun p => (pyRound p.1, p.2))

/-- The canonical duplicate-resolved table: one row per rounded position in
ascending order, carrying the maximum age among the rows at that position. -/
noncomputable def groupMaxTable (rows : List (ℤ × WithBot ℝ)) : List (ℤ × WithBot ℝ) :=
  ((rows.map Prod.fst).toFinset.sort (· ≤ ·)).map
    (fun k => (k, ((rows.filter (fun r => decide (r.1 = k))).map Prod.snd).foldl max ⊥))

/-- Model of `np.sort(np.unique(np.concatenate([...])))`: the distinct
coordinates of a list in ascending order. -/
def sortUnique (l : List ℚ) : List ℚ := l.toFinset.sort (· ≤ ·)

/-- Topological depth of a node: number of edges on its path to a parentless
node, with fuel bounding the chase through `parent`. -/
def rootDepth (t : LocalTree) : ℕ → ℕ → ℕ
  | 0, _ => 0
  | fuel + 1, v =>
    let p := t.parent v
    if p < 0 then 0 else 1 + rootDepth t fuel p.toNat

/-- Branch-length depth of a node: total time along its path to a parentless
node, with fuel bounding the chase through `parent`. -/
noncomputable def rootPathLen (t : LocalTree) : ℕ → ℕ → ℝ
  | 0, _ => 0
  | fuel + 1, v =>
    let p := t.parent v
    if p < 0 then 0 else (t.time p.toNat - t.time v) + rootPathLen t fuel p.toNat

/-- Modelled from the spec: the per-pair local-tree distance is
`tskit.Tree.kc_distance`, external library code not in this repository.
The spec describes it as "a combinatorial/branch-length distance
parameterized by a weighting constant that trades off topology-only vs.
branch-length-aware distance" (a Kendall-Colijn style metric). It is
modelled as the Euclidean norm of the difference of per-tree feature
vectors, where the weighting constant mixes the topological and the
branch-length depth of each node. -/
noncomputable def kcFeature (t : LocalTree) (lam : ℝ) (i : ℕ) : ℝ :=
  (1 - lam) * (rootDepth t t.nn i : ℝ) + lam * rootPathLen t t.nn i

/-- Modelled from the spec: symmetric tree-pair distance used for each
sub-interval, see `kcFeature`. -/
noncomputable def kc_tree_distance (t1 t2 : LocalTree) (lam : ℝ) : ℝ :=
  Real.sqrt (∑ i ∈ Finset.range (max t1.nn t2.nn), (kcFeature t1 lam i - kcFeature t2 lam i) ^ 2)

/-- One `if flag: tree = next(iterator)` step of `kc_distance_ts`:
`none` models `StopIteration`; otherwise the current tree (possibly still
unassigned, `Option`) and the remaining iterator are returned. -/
def advanceTree (flag : Bool) (rem : List LocalTree) (cur : Option LocalTree) :
    Option (Option LocalTree × List LocalTree) :=
  if flag then
    match rem with
    | [] => none
    | t :: r => some (some t, r)
  else some (cur, rem)

/-- The main loop of `kc_distance_ts` (src/evaluation.py lines 398-410) over
the merged breakpoint list: advance each genealogy's tree iterator when the
current coordinate is one of its breakpoints; on `StopIteration` break,
returning the accumulated sum and the current coordinate as
`last_breakpoint`; otherwise add the tree distance weighted by the length
to the next merged breakpoint. `none` models an uncaught Python error
(`comb_breakpoints[index + 1]` out of range, or an unassigned tree). -/
noncomputable def kcStep (lam : ℝ) (bps1 bps2 : List ℚ) :
    List ℚ → List LocalTree → List LocalTree → Option LocalTree → Option LocalTree → ℝ →
    Option (ℝ × ℚ)
  | [], _, _, _, _, _ => none
  | b :: rest, rem1, rem2, cur1, cur2, kc =>
    match advanceTree (decide (b ∈ bps1)) rem1 cur1,
          advanceTree (decide (b ∈ bps2)) rem2 cur2 with
    | none, _ => some (kc, b)
    | some _, none => some (kc, b)
    | some (c1, r1), some (c2, r2) =>
      match rest.head? with
      | none => none
      | some nb =>
        match c1, c2 with
        | some t1, some t2 =>
          kcStep lam bps1 bps2 rest r1 r2 (some t1) (some t2)
            (kc + kc_tree_distance t1 t2 lam * ((nb : ℝ) - (b : ℝ)))
        | _, _ => none

/-- Embedding of `kc_distance_ts` (src/evaluation.py lines 386-412): merge
the two breakpoint lists, run the loop, and divide the accumulated sum by
`last_breakpoint - comb_breakpoints[0]`. `none` models an uncaught Python
error (in particular an empty merged breakpoint list). -/
noncomputable def kc_distance_ts (ts_1 ts_2 : TS) (lambda_param : ℝ) : Option ℝ :=
  match (sortUnique (ts_1.breakpoints ++ ts_2.breakpoints)).head? with
  | none => none
  | some c0 =>
    (kcStep lambda_param ts_1.breakpoints ts_2.breakpoints
        (sortUnique (ts_1.breakpoints ++ ts_2.breakpoints)) ts_1.trees ts_2.trees
        none none 0).map
      (fun r => r.1 / ((r.2 : ℝ) - (c0 : ℝ)))

/-- The sub-interval decomposition described by the spec: the same walk,
but collecting each sub-interval's (tree distance, length) pair and the
truncation coordinate at which an iterator was exhausted. -/
noncomputable def kcSubIntervals (lam : ℝ) (bps1 bps2 : List ℚ) :
    List ℚ → List LocalTree → List LocalTree → Option LocalTree → Option LocalTree →
    Option (List (ℝ × ℚ) × ℚ)
  | [], _, _, _, _ => none
  | b :: rest, rem1, rem2, cur1, cur2 =>
    match advanceTree (decide (b ∈ bps1)) rem1 cur1,
          advanceTree (decide (b ∈ bps2)) rem2 cur2 with
    | none, _ => some ([], b)
    | some _, none => some ([], b)
    | some (c1, r1), some (c2, r2) =>
      match rest.head? with
      | none => none
      | some nb =>
        match c1, c2 with
        | some t1, some t2 =>
          (kcSubIntervals lam bps1 bps2 rest r1 r2 (some t1) (some t2)).map
            (fun sr => ((kc_tree_distance t1 t2 lam, nb - b) :: sr.1, sr.2))
        | _, _ => none

/-- The truncated, length-weighted average the spec describes for
`kc_distance_ts`: the sum of per-sub-interval tree distances weighted by
sub-interval length, divided by the total compared length (truncation
coordinate minus the first merged breakpoint). -/
noncomputable def kcSpecTruncated (ts_1 ts_2 : TS) (lam : ℝ) : Option ℝ :=
  match (sortUnique (ts_1.breakpoints ++ ts_2.breakpoints)).head? with
  | none => none
  | some c0 =>
    (kcSubIntervals lam ts_1.breakpoints ts_2.breakpoints
        (sortUnique (ts_1.breakpoints ++ ts_2.breakpoints)) ts_1.trees ts_2.trees
        none none).map
      (fun sr => (sr.1.map (fun p => p.1 * (p.2 : ℝ))).sum / ((sr.2 : ℝ) - (c0 : ℝ)))

/-- Embedding of `make_no_errors` (src/evaluation.py lines 50-52):
`assert error_prob == 0` (a failed assertion is `none`), then return the
genotypes unchanged. -/
def make_no_errors (g : List ℤ) (error_prob : ℚ) : Option (List ℤ) :=
  if error_prob = 0 then some g else none

/-- The bad-site flag array built by `generate_samples`
(src/evaluation.py lines 133-144) before shuffling: `np.zeros(n, bool)`
with the slice `[0:n_bad_sites]` set to `True`, where
`n_bad_sites = round(aa_error * num_sites)` (slice assignment caps at the
array length). -/
def initFlags (aa_error : ℚ) (n_sites : ℕ) : List Bool :=
  let n_bad := min (pyRound (aa_error * n_sites)).toNat n_sites
  List.replicate n_bad true ++ List.replicate (n_sites - n_bad) false

/-- Embedding of the ancestral-allele error setup of `generate_samples`
(src/evaluation.py lines 132-145). `np.random.shuffle` is modelled by the
oracle argument `shuffled` (theorems constrain it to be a permutation of
`initFlags`). The two `assert` statements (`aa_error <= 1`, and
`sum(aa_error_by_site) == n_bad_sites` after the shuffle) are modelled as
`none` on failure. For `aa_error = 0` the all-`False` array is returned
unshuffled. -/
def aa_error_by_site (aa_error : ℚ) (n_sites : ℕ) (shuffled : List Bool) :
    Option (List Bool) :=
  if 0 < aa_error then
    if aa_error ≤ 1 then
      if (shuffled.count true : ℤ) = pyRound (aa_error * n_sites) then some shuffled
      else none
    else none
  else some (List.replicate n_sites false)

/-- A row of the empirical error-probability table consumed by
`make_seq_errors_genotype_model`: a frequency and the genotype-transition
probabilities `p00..p22`. -/
structure ErrRow where
  freq : ℚ
  p00 : ℚ
  p01 : ℚ
  p02 : ℚ
  p10 : ℚ
  p11 : ℚ
  p12 : ℚ
  p20 : ℚ
  p21 : ℚ
  p22 : ℚ
  deriving DecidableEq

/-- The row of the error-probability table whose frequency is nearest to
the variant frequency: `(error_probs['freq'] - frequency).abs().argsort()[:1]`.
Ties are resolved to an occurrence with minimal distance (`argsort` with
NumPy's default unstable sort picks an arbitrary minimiser; only the
probability row, which feeds the random draw, depends on it). -/
def closestRow (rows : List ErrRow) (f : ℚ) : Option ErrRow :=
  rows.foldl (fun acc r =>
    match acc with
    | none => some r
    | some b => if |r.freq - f| < |b.freq - f| then some r else some b) none

/-- The table `base_genotypes = np.array([[0, 0], [1, 0], [0, 1], [1, 1]])`. -/
def base_genotypes : List (ℤ × ℤ) := [(0, 0), (1, 0), (0, 1), (1, 1)]

/-- View a flat genotype array as diploid pairs (`np.reshape(w, (-1, 2))`). -/
def toPairs : List ℤ → List (ℤ × ℤ)
  | a :: b :: rest => (a, b) :: toPairs rest
  | _ => []

/-- Flatten diploid pairs back to a genotype array (`np.reshape(genos, -1)`). -/
def flattenPairs (l : List (ℤ × ℤ)) : List ℤ :=
  l.foldr (fun p acc => p.1 :: p.2 :: acc) []

/-- Resampling of one diploid pair by the masked assignments of
`make_seq_errors_genotype_model` (src/evaluation.py lines 79-97): the pair's
class is `count = g0 + 2*g1`; class 0 and 3 pairs draw a replacement from
all four `base_genotypes` rows, class 1 from rows `[0, 1, 3]`, class 2 from
rows `[0, 2, 3]`; other pairs are untouched. The random draws
(`np.random.choice` with probabilities from the nearest-frequency row) are
modelled by the oracles `o0, o1, o2, o3`, which receive that row. -/
def resamplePair (row : ErrRow) (o0 o3 : ErrRow → ℕ → Fin 4) (o1 o2 : ErrRow → ℕ → Fin 3)
    (j : ℕ) (p : ℤ × ℤ) : ℤ × ℤ :=
  let count := p.1 + 2 * p.2
  if count = 0 then base_genotypes.getD (o0 row j) (0, 0)
  else if count = 1 then [((0 : ℤ), (0 : ℤ)), (1, 0), (1, 1)].getD (o1 row j) (0, 0)
  else if count = 2 then [((0 : ℤ), (0 : ℤ)), (0, 1), (1, 1)].getD (o2 row j) (0, 0)
  else if count = 3 then base_genotypes.getD (o3 row j) (0, 0)
  else p

/-- Embedding of `make_seq_errors_genotype_model` (src/evaluation.py lines
61-99) over an explicit store of array buffers, so that aliasing and
mutation are visible: the input array lives at `gAddr`; `w = np.copy(g)`
allocates a fresh buffer, `genos` is a view of `w`, and all masked
assignments write through that view. The returned pair is the final store
and the address of the returned array (`none` models an uncaught error:
an invalid input reference, `np.reshape(w, (-1, 2))` on an odd-length
array, or an empty probability table, which raises at the first masked
assignment - in each case after any allocations already made). -/
def make_seq_errors_genotype_model (st : List (List ℤ)) (gAddr : ℕ)
    (error_probs : List ErrRow) (o0 o3 : ErrRow → ℕ → Fin 4)
    (o1 o2 : ErrRow → ℕ → Fin 3) : List (List ℤ) × Option ℕ :=
  match st[gAddr]? with
  | none => (st, none)
  | some g =>
    let m := g.length
    let frequency : ℚ := ((g.sum : ℤ) : ℚ) / (m : ℚ)
    let wAddr := st.length
    let st1 := st ++ [g]
    if 2 ∣ m then
      match closestRow error_probs frequency with
      | none => (st1, none)
      | some row =>
        let newPairs := (toPairs g).mapIdx (fun j p => resamplePair row o0 o3 o1 o2 j p)
        (st1.set wAddr (flattenPairs newPairs), some wAddr)
    else (st1, none)

/-- The fields of the timing wrapper's output line, in the order fixed by
the format string `"-f%M %S %U"` passed to `/usr/bin/time` in `time_cmd`
(src/evaluation.py line 841): maximum resident set size, system CPU
seconds, user CPU seconds. -/
inductive TimeField
  | maxrss
  | systime
  | usertime
  deriving DecidableEq

/-- The field order `time_cmd` requests and parses: `%M %S %U`. -/
def time_cmd_field_order : List TimeField :=
  [TimeField.maxrss, TimeField.systime, TimeField.usertime]

/-- What `time_cmd` derives from the three whitespace-split fields of the
timing line (src/evaluation.py lines 851-861): peak memory in bytes from
the first field (`int(split[0]) * 1024`), system CPU seconds from the
second, user CPU seconds from the third. -/
structure TimeCmdResult where
  max_memory : ℤ
  system_time : ℚ
  user_time : ℚ
  deriving DecidableEq

/-- The parsing step of `time_cmd` on the three fields of the last stderr
line. -/
def time_cmd_parse (field1 : ℤ) (field2 field3 : ℚ) : TimeCmdResult :=
  { max_memory := field1 * 1024, system_time := field2, user_time := field3 }

/-- Embedding of `time_cmd` (src/evaluation.py lines 831-862): on a
non-zero exit status raise `ValueError` with a message carrying the
captured stderr content (modelled as `Except.error`); otherwise parse the
timing fields and return `(user_time + system_time, max_memory)`. -/
def time_cmd (exit_status : ℤ) (stderr_content : String) (field1 : ℤ)
    (field2 field3 : ℚ) : Except String (ℚ × ℤ) :=
  if exit_status ≠ 0 then
    Except.error ("Error running: status=" ++ toString exit_status ++ ":stderr"
      ++ stderr_content)
  else
    Except.ok ((time_cmd_parse field1 field2 field3).user_time
        + (time_cmd_parse field1 field2 field3).system_time,
      (time_cmd_parse field1 field2 field3).max_memory)

/-- Descending-by-age row order used by `get_mut_pos_df`. -/
noncomputable instance : DecidableRel (fun (a b : ℤ × WithBot ℝ) => b.2 ≤ a.2) :=
  fun a b => inferInstanceAs (Decidable (b.2 ≤ a.2))

instance : IsTotal (ℤ × WithBot ℝ) (fun a b => b.2 ≤ a.2) :=
  ⟨fun a b => le_total b.2 a.2⟩

instance : IsTrans (ℤ × WithBot ℝ) (fun a b => b.2 ≤ a.2) :=
  ⟨fun _ _ _ h1 h2 => le_trans h2 h1⟩

/-- A genealogy with a single site (position 5) carrying no mutation. -/
def tsNoMut : TS :=
  { num_nodes := 1
    breakpoints := []
    trees := [{ nn := 1, parent := fun _ => -1, time := fun _ => 0,
                sites := [{ position := 5, mutations := [] }] }] }

/-- A local tree on nodes 0, 1, 2 whose root is node 0 (so the root is not
node `num_nodes - 1`), with one mutation at node 1 on a site at position 1. -/
def treeRootZero : LocalTree :=
  { nn := 3
    parent := fun v => if v = 0 then -1 else 0
    time := fun _ => 0
    sites := [{ position := 1, mutations := [{ node := 1 }] }] }

/-- The genealogy holding `treeRootZero`, with 3 nodes. -/
def tsRootZero : TS :=
  { num_nodes := 3, breakpoints := [], trees := [treeRootZero] }

/-- A genealogy with one site (position 1) carrying one mutation at node 0,
whose tree parent is node 1; used to instantiate theorems at a concrete
input. -/
def tsOneMut : TS :=
  { num_nodes := 2
    breakpoints := []
    trees := [{ nn := 2, parent := fun v => if v = 0 then 1 else -1,
                time := fun _ => 0,
                sites := [{ position := 1, mutations := [{ node := 0 }] }] }] }

instance : RightCommutative (fun (b a : WithBot ℝ) => max b a) :=
  ⟨fun b a1 a2 => sup_right_comm b a1 a2⟩

theorem pyRound_nonneg {q : ℚ} (h : 0 ≤ q) : 0 ≤ pyRound q := by
  have hf : (0 : ℤ) ≤ ⌊q⌋ := Int.floor_nonneg.mpr h
  unfold pyRound
  split_ifs <;> omega

theorem pyRound_le {q : ℚ} {n : ℕ} (h : q ≤ (n : ℚ)) : pyRound q ≤ (n : ℤ) := by
  have hf : ⌊q⌋ ≤ (n : ℤ) := by
    have h2 := Int.floor_le_floor h
    simpa using h2
  have hhalf : ¬(q - (⌊q⌋ : ℚ) < 1/2) → ⌊q⌋ < (n : ℤ) := by
    intro h1
    have h3 : (⌊q⌋ : ℚ) + 1/2 ≤ q := by
      have := not_lt.mp h1
      linarith
    have h4 : (⌊q⌋ : ℚ) < (n : ℚ) := by linarith
    exact_mod_cast h4
  unfold pyRound
  split_ifs with h1 h2 h3
  · exact hf
  · exact Int.add_one_le_of_lt (hhalf h1)
  · exact hf
  · exact Int.add_one_le_of_lt (hhalf h1)

theorem pyRound_zero : pyRound 0 = 0 := by
  unfold pyRound
  norm_num

/-- C6: with sequencing-error probability 0 the error-injection path is a
true no-op (the output genotypes are exactly the input genotypes), and the
zero-probability precondition is enforced by an assertion (any non-zero
probability fails the assertion). -/
theorem make_no_errors_noop (g : List ℤ) (p : ℚ) (hp : p ≠ 0) :
    make_no_errors g 0 = some g ∧ make_no_errors g p = none := by
  constructor
  · simp [make_no_errors]
  · simp [make_no_errors, hp]

/-- Witness for `make_no_errors_noop` at a concrete genotype array and a
concrete non-zero probability. -/
theorem make_no_errors_noop_witness :
    (1 : ℚ) ≠ 0 ∧
      (make_no_errors [0, 1] 0 = some [0, 1] ∧ make_no_errors [0, 1] 1 = none) :=
  ⟨by decide, make_no_errors_noop [0, 1] 1 (by decide)⟩

/-- C9: when the timed subprocess exits with non-zero status, `time_cmd`
raises a `ValueError` whose message carries the captured stderr content,
and no timing or memory result is returned. -/
theorem time_cmd_raises (exit_status : ℤ) (h : exit_status ≠ 0)
    (stderr_content : String) (f1 : ℤ) (f2 f3 : ℚ) :
    time_cmd exit_status stderr_content f1 f2 f3 =
        Except.error ("Error running: status=" ++ toString exit_status ++ ":stderr"
          ++ stderr_content) ∧
      ∀ r, time_cmd exit_status stderr_content f1 f2 f3 ≠ Except.ok r := by
  constructor
  · simp [time_cmd, h]
  · intro r
    simp [time_cmd, h]

/-- Witness for `time_cmd_raises` at a concrete failing invocation. -/
theorem time_cmd_raises_witness :
    (1 : ℤ) ≠ 0 ∧
      (time_cmd 1 "boom" 100 2 3 =
          Except.error ("Error running: status=" ++ toString (1 : ℤ) ++ ":stderr"
            ++ "boom") ∧
        ∀ r, time_cmd 1 "boom" 100 2 3 ≠ Except.ok r) :=
  ⟨by decide, time_cmd_raises 1 (by decide) "boom" 100 2 3⟩

/-- C8 counterexample: the timing wrapper's fields are not in the order
maxrss, usertime, systime, and the parse does not take user seconds from
the second field and system seconds from the third: on the line
`100 2 3` the code records system time 2 and user time 3, not the other
way around. -/
theorem time_cmd_field_order_cex :
    time_cmd_field_order ≠ [TimeField.maxrss, TimeField.usertime, TimeField.systime] ∧
      time_cmd_parse 100 2 3 ≠ ⟨102400, 3, 2⟩ := by
  constructor <;> decide

/-- C8 amended: `time_cmd` requests and parses the fixed 3-field line in
the order maxrss, systime, usertime (`"-f%M %S %U"`), deriving peak memory
(bytes) from the first field, system CPU seconds from the second and user
CPU seconds from the third, and on success returns
`(user_time + system_time, max_memory)`. -/
theorem time_cmd_parse_fields (s : String) (f1 : ℤ) (f2 f3 : ℚ) :
    time_cmd_field_order = [TimeField.maxrss, TimeField.systime, TimeField.usertime] ∧
      time_cmd_parse f1 f2 f3 = ⟨f1 * 1024, f2, f3⟩ ∧
      time_cmd 0 s f1 f2 f3 = Except.ok (f3 + f2, f1 * 1024) := by
  refine ⟨rfl, rfl, ?_⟩
  simp [time_cmd, time_cmd_parse]

/-- C5: for the exact-count ancestral-state error model with error rate
`aa_error` applied to `n_sites` sites, the number of sites whose polarity
is flipped (the `True` entries of the flag array, each of which negates
its site's genotypes) is exactly `round(aa_error * n_sites)`, for every
shuffle outcome. -/
theorem aa_flip_count (aa_error : ℚ) (n_sites : ℕ) (shuffled : List Bool)
    (h0 : 0 ≤ aa_error) (h1 : aa_error ≤ 1)
    (hp : shuffled.Perm (initFlags aa_error n_sites)) :
    ∃ flags, aa_error_by_site aa_error n_sites shuffled = some flags ∧
      (flags.count true : ℤ) = pyRound (aa_error * n_sites) := by
  rcases lt_or_eq_of_le h0 with hpos | hzero
  · have hnn : 0 ≤ pyRound (aa_error * n_sites) :=
      pyRound_nonneg (by positivity)
    have hle : pyRound (aa_error * n_sites) ≤ (n_sites : ℤ) :=
      pyRound_le (by nlinarith)
    have hcnt_init : ((initFlags aa_error n_sites).count true : ℤ) =
        pyRound (aa_error * n_sites) := by
      unfold initFlags
      rw [List.count_append, List.count_replicate, List.count_replicate]
      norm_num
      omega
    have hcnt : (shuffled.count true : ℤ) = pyRound (aa_error * n_sites) := by
      rw [hp.count_eq true]
      exact hcnt_init
    refine ⟨shuffled, ?_, hcnt⟩
    unfold aa_error_by_site
    rw [if_pos hpos, if_pos h1, if_pos hcnt]
  · subst hzero
    refine ⟨List.replicate n_sites false, ?_, ?_⟩
    · unfold aa_error_by_site
      rw [if_neg (lt_irrefl 0)]
    · rw [List.count_replicate]
      simp [pyRound_zero]

/-- Witness for `aa_flip_count`: error rate 1/2 over 3 sites, with a
concrete shuffle outcome; exactly `round(1.5) = 2` sites are flipped. -/
theorem aa_flip_count_witness :
    (0 ≤ (1/2 : ℚ) ∧ (1/2 : ℚ) ≤ 1 ∧ [false, true, true].Perm (initFlags (1/2) 3)) ∧
      ∃ flags, aa_error_by_site (1/2) 3 [false, true, true] = some flags ∧
        (flags.count true : ℤ) = pyRound ((1/2) * 3) :=
  ⟨⟨by norm_num, by norm_num,
      by rw [show initFlags (1/2) 3 = [true, true, false] from by
        norm_num [initFlags, pyRound]; decide]; decide⟩,
    aa_flip_count (1/2) 3 [false, true, true] (by norm_num) (by norm_num)
      (by rw [show initFlags (1/2) 3 = [true, true, false] from by
        norm_num [initFlags, pyRound]; decide]; decide)⟩

theorem toPairs_length : ∀ (l : List ℤ), (toPairs l).length = l.length / 2
  | [] => rfl
  | [_] => by simp [toPairs]
  | _ :: _ :: rest => by
    simp only [toPairs, List.length_cons, toPairs_length rest]
    omega

theorem flattenPairs_length (l : List (ℤ × ℤ)) : (flattenPairs l).length = 2 * l.length := by
  induction l with
  | nil => rfl
  | cons p rest ih => simp [flattenPairs, List.foldr_cons] at ih ⊢; omega

/-- C10: `make_seq_errors_genotype_model` never mutates the input genotype
buffer: after the call the buffer at `gAddr` is unchanged (the resampling
writes only through the view of the `np.copy`), and when the call returns,
the returned array lives at a freshly allocated address outside the
original store and has the same length as the input. -/
theorem make_seq_errors_frame (st : List (List ℤ)) (gAddr : ℕ)
    (error_probs : List ErrRow) (o0 o3 : ErrRow → ℕ → Fin 4)
    (o1 o2 : ErrRow → ℕ → Fin 3) (h : gAddr < st.length) :
    (make_seq_errors_genotype_model st gAddr error_probs o0 o3 o1 o2).1[gAddr]? =
        st[gAddr]? ∧
      ∀ r, (make_seq_errors_genotype_model st gAddr error_probs o0 o3 o1 o2).2 = some r →
        st.length ≤ r ∧
          ∃ buf, (make_seq_errors_genotype_model st gAddr error_probs o0 o3 o1 o2).1[r]? =
              some buf ∧ buf.length = (st[gAddr]?.getD []).length := by
  obtain ⟨g, hg⟩ : ∃ g, st[gAddr]? = some g :=
    ⟨st[gAddr], List.getElem?_eq_getElem h⟩
  have happ : (st ++ [g])[gAddr]? = some g := by
    rw [List.getElem?_append, if_pos h, hg]
  by_cases hm : 2 ∣ g.length
  · cases hrow : closestRow error_probs ((g.sum : ℚ) / (g.length : ℚ)) with
    | none =>
      have hres : make_seq_errors_genotype_model st gAddr error_probs o0 o3 o1 o2 =
          (st ++ [g], none) := by
        simp only [make_seq_errors_genotype_model, hg]
        rw [if_pos hm, hrow]
      rw [hres, hg]
      exact ⟨happ, fun r hr => Option.noConfusion hr⟩
    | some row =>
      have hres : make_seq_errors_genotype_model st gAddr error_probs o0 o3 o1 o2 =
          ((st ++ [g]).set st.length (flattenPairs ((toPairs g).mapIdx
            (fun j p => resamplePair row o0 o3 o1 o2 j p))), some st.length) := by
        simp only [make_seq_errors_genotype_model, hg]
        rw [if_pos hm, hrow]
      rw [hres, hg]
      constructor
      · rw [List.getElem?_set_ne (by omega), happ]
      · intro r hr
        have hr2 : (some st.length : Option ℕ) = some r := hr
        obtain rfl : st.length = r := Option.some.inj hr2
        refine ⟨le_refl _, flattenPairs ((toPairs g).mapIdx
          (fun j p => resamplePair row o0 o3 o1 o2 j p)), ?_, ?_⟩
        · exact List.getElem?_set_self (by simp)
        · rw [flattenPairs_length, List.length_mapIdx, toPairs_length]
          simp only [Option.getD_some]
          omega
  · have hres : make_seq_errors_genotype_model st gAddr error_probs o0 o3 o1 o2 =
        (st ++ [g], none) := by
      simp only [make_seq_errors_genotype_model, hg]
      rw [if_neg hm]
    rw [hres, hg]
    exact ⟨happ, fun r hr => Option.noConfusion hr⟩

/-- Witness for `make_seq_errors_frame`: a store with one two-entry
genotype buffer and a one-row probability table. -/
theorem make_seq_errors_frame_witness :
    0 < [[(0 : ℤ), 1]].length ∧
      ((make_seq_errors_genotype_model [[(0 : ℤ), 1]] 0 [⟨0, 0, 0, 0, 0, 0, 0, 0, 0, 0⟩]
            (fun _ _ => 0) (fun _ _ => 0) (fun _ _ => 0) (fun _ _ => 0)).1[0]? =
          [[(0 : ℤ), 1]][0]? ∧
        ∀ r, (make_seq_errors_genotype_model [[(0 : ℤ), 1]] 0 [⟨0, 0, 0, 0, 0, 0, 0, 0, 0, 0⟩]
              (fun _ _ => 0) (fun _ _ => 0) (fun _ _ => 0) (fun _ _ => 0)).2 = some r →
          [[(0 : ℤ), 1]].length ≤ r ∧
            ∃ buf, (make_seq_errors_genotype_model [[(0 : ℤ), 1]] 0
                  [⟨0, 0, 0, 0, 0, 0, 0, 0, 0, 0⟩] (fun _ _ => 0) (fun _ _ => 0)
                  (fun _ _ => 0) (fun _ _ => 0)).1[r]? = some buf ∧
              buf.length = (([[(0 : ℤ), 1]][0]?).getD []).length) :=
  ⟨by decide,
    make_seq_errors_frame [[(0 : ℤ), 1]] 0 [⟨0, 0, 0, 0, 0, 0, 0, 0, 0, 0⟩]
      (fun _ _ => 0) (fun _ _ => 0) (fun _ _ => 0) (fun _ _ => 0) (by decide)⟩

theorem kc_tree_distance_comm (t1 t2 : LocalTree) (lam : ℝ) :
    kc_tree_distance t1 t2 lam = kc_tree_distance t2 t1 lam := by
  unfold kc_tree_distance
  rw [max_comm t2.nn t1.nn]
  congr 1
  apply Finset.sum_congr rfl
  intro i _
  ring

theorem kcStep_comm (lam : ℝ) (bps1 bps2 : List ℚ) :
    ∀ (comb : List ℚ) (rem1 rem2 : List LocalTree) (cur1 cur2 : Option LocalTree) (kc : ℝ),
      kcStep lam bps1 bps2 comb rem1 rem2 cur1 cur2 kc =
        kcStep lam bps2 bps1 comb rem2 rem1 cur2 cur1 kc
  | [], _, _, _, _, _ => rfl
  | b :: rest, rem1, rem2, cur1, cur2, kc => by
    simp only [kcStep]
    rcases h1 : advanceTree (decide (b ∈ bps1)) rem1 cur1 with _ | ⟨c1, r1⟩ <;>
      rcases h2 : advanceTree (decide (b ∈ bps2)) rem2 cur2 with _ | ⟨c2, r2⟩
    · rfl
    · rfl
    · rfl
    · cases hnb : rest.head? with
      | none => rfl
      | some nb =>
        rcases c1 with _ | t1 <;> rcases c2 with _ | t2
        · rfl
        · rfl
        · rfl
        · simp only []
          rw [kc_tree_distance_comm]
          exact kcStep_comm lam bps1 bps2 rest r1 r2 (some t1) (some t2) _

/-- C2: the tree-distance computation is symmetric: for every pair of
genealogies and every weighting parameter,
`kc_distance_ts(A, B, lambda) = kc_distance_ts(B, A, lambda)`. -/
theorem kc_distance_ts_symm (ts_1 ts_2 : TS) (lambda_param : ℝ) :
    kc_distance_ts ts_1 ts_2 lambda_param = kc_distance_ts ts_2 ts_1 lambda_param := by
  have hcomb : sortUnique (ts_1.breakpoints ++ ts_2.breakpoints) =
      sortUnique (ts_2.breakpoints ++ ts_1.breakpoints) := by
    unfold sortUnique
    rw [List.toFinset_append, List.toFinset_append, Finset.union_comm]
  unfold kc_distance_ts
  rw [hcomb, kcStep_comm]

theorem kcStep_eq_subIntervals (lam : ℝ) (bps1 bps2 : List ℚ) :
    ∀ (comb : List ℚ) (rem1 rem2 : List LocalTree) (cur1 cur2 : Option LocalTree) (kc : ℝ),
      kcStep lam bps1 bps2 comb rem1 rem2 cur1 cur2 kc =
        (kcSubIntervals lam bps1 bps2 comb rem1 rem2 cur1 cur2).map
          (fun sr => (kc + (sr.1.map (fun p => p.1 * (p.2 : ℝ))).sum, sr.2))
  | [], _, _, _, _, _ => rfl
  | b :: rest, rem1, rem2, cur1, cur2, kc => by
    simp only [kcStep, kcSubIntervals]
    rcases advanceTree (decide (b ∈ bps1)) rem1 cur1 with _ | ⟨c1, r1⟩ <;>
      rcases advanceTree (decide (b ∈ bps2)) rem2 cur2 with _ | ⟨c2, r2⟩
    · simp
    · simp
    · simp
    · cases rest.head? with
      | none => rfl
      | some nb =>
        rcases c1 with _ | t1 <;> rcases c2 with _ | t2
        · rfl
        · rfl
        · rfl
        · simp only []
          rw [kcStep_eq_subIntervals lam bps1 bps2 rest r1 r2 (some t1) (some t2) _]
          rw [Option.map_map]
          congr 1
          funext sr
          simp [Function.comp, add_assoc]

/-- C3: `kc_distance_ts` equals the truncated, length-weighted average the
spec describes: when either genealogy's tree iterator is exhausted before
the merged breakpoint list is consumed, the comparison truncates at that
coordinate, and the result is the sum of per-sub-interval tree distances
weighted by sub-interval length, divided by the truncation coordinate
minus the first merged breakpoint (agreement extends to the error cases,
both `none`). -/
theorem kc_distance_ts_truncates (ts_1 ts_2 : TS) (lam : ℝ) :
    kc_distance_ts ts_1 ts_2 lam = kcSpecTruncated ts_1 ts_2 lam := by
  unfold kc_distance_ts kcSpecTruncated
  cases (sortUnique (ts_1.breakpoints ++ ts_2.breakpoints)).head? with
  | none => rfl
  | some c0 =>
    rw [kcStep_eq_subIntervals]
    dsimp only
    rw [Option.map_map]
    congr 1
    funext sr
    simp [Function.comp]

theorem site_step_eq (nn : ℕ) (dates : ℤ → ℝ) (er : Bool) (t : LocalTree) (pos : ℚ)
    (d : List (ℚ × WithBot ℝ)) (m : Mut) :
    site_step nn dates er t pos d m =
      if er ∧ t.parent m.node = (nn : ℤ) - 1 then d
      else if dictGet d pos < ((mut_age nn dates t m : ℝ) : WithBot ℝ) then
        dictSet d pos ((mut_age nn dates t m : ℝ) : WithBot ℝ)
      else d := rfl

theorem dictGet_dictSet : ∀ (d : List (ℚ × WithBot ℝ)) (k : ℚ) (v : WithBot ℝ),
    dictGet (dictSet d k v) k = v
  | [], k, v => by simp [dictSet, dictGet]
  | p :: rest, k, v => by
    by_cases h : p.1 = k
    · simp [dictSet, dictGet, h]
    · simp [dictSet, dictGet, h, dictGet_dictSet rest k v]

theorem dictSet_dictSet : ∀ (d : List (ℚ × WithBot ℝ)) (k : ℚ) (v w : WithBot ℝ),
    dictSet (dictSet d k v) k w = dictSet d k w
  | [], k, v, w => by simp [dictSet]
  | p :: rest, k, v, w => by
    by_cases h : p.1 = k
    · simp [dictSet, h]
    · simp [dictSet, h, dictSet_dictSet rest k v w]

theorem dictSet_fresh : ∀ (d : List (ℚ × WithBot ℝ)) (k : ℚ) (v : WithBot ℝ),
    k ∉ d.map Prod.fst → dictSet d k v = d ++ [(k, v)]
  | [], k, v, _ => rfl
  | p :: rest, k, v, h => by
    have hp : ¬(p.1 = k) := fun he => h (by simp [List.map_cons, ← he])
    simp [dictSet, hp, dictSet_fresh rest k v (fun hm => h (by simp [hm]))]

theorem mut_fold (nn : ℕ) (dates : ℤ → ℝ) (er : Bool) (t : LocalTree) (pos : ℚ) :
    ∀ (muts : List Mut) (d : List (ℚ × WithBot ℝ)) (v : WithBot ℝ),
      muts.foldl (site_step nn dates er t pos) (dictSet d pos v) =
        dictSet d pos (((muts.filter (mutKept nn er t)).map
          (fun m => ((mut_age nn dates t m : ℝ) : WithBot ℝ))).foldl max v)
  | [], d, v => by simp
  | m :: rest, d, v => by
    by_cases hP : (er : Prop) ∧ t.parent m.node = (nn : ℤ) - 1
    · have hstep : site_step nn dates er t pos (dictSet d pos v) m = dictSet d pos v := by
        rw [site_step_eq, if_pos hP]
      have hkept : ¬(mutKept nn er t m = true) := by simp [mutKept, hP.1, hP.2]
      rw [List.foldl_cons, hstep, List.filter_cons, if_neg hkept]
      exact mut_fold nn dates er t pos rest d v
    · have hkept : mutKept nn er t m = true := by
        simp only [mutKept, decide_eq_true_eq]
        exact hP
      have hget := dictGet_dictSet d pos v
      rw [List.foldl_cons, List.filter_cons, if_pos hkept, List.map_cons, List.foldl_cons]
      by_cases hv : v < ((mut_age nn dates t m : ℝ) : WithBot ℝ)
      · have hstep : site_step nn dates er t pos (dictSet d pos v) m =
            dictSet d pos ((mut_age nn dates t m : ℝ) : WithBot ℝ) := by
          rw [site_step_eq, if_neg hP, hget, if_pos hv, dictSet_dictSet]
        rw [hstep, max_eq_right hv.le]
        exact mut_fold nn dates er t pos rest d _
      · have hstep : site_step nn dates er t pos (dictSet d pos v) m = dictSet d pos v := by
          rw [site_step_eq, if_neg hP, hget, if_neg hv]
        rw [hstep, max_eq_left (not_lt.mp hv)]
        exact mut_fold nn dates er t pos rest d v

theorem pairs_fold (nn : ℕ) (dates : ℤ → ℝ) (er : Bool) :
    ∀ (pairs : List (LocalTree × Site)) (d : List (ℚ × WithBot ℝ)),
      (∀ p ∈ pairs, p.2.position ∉ d.map Prod.fst) →
      (pairs.map (fun p => p.2.position)).Nodup →
      pairs.foldl (fun d p =>
          p.2.mutations.foldl (site_step nn dates er p.1 p.2.position)
            (dictSet d p.2.position ⊥)) d =
        d ++ pairs.map (fun p => (p.2.position, site_age nn dates er p.1 p.2))
  | [], d, _, _ => by simp
  | (t, s) :: rest, d, hfresh, hnd => by
    have hfr : s.position ∉ d.map Prod.fst := hfresh (t, s) (List.mem_cons_self _ _)
    have hnd2 : (s.position :: rest.map (fun p => p.2.position)).Nodup := by
      simpa using hnd
    have hhead : s.position ∉ rest.map (fun p => p.2.position) :=
      (List.nodup_cons.mp hnd2).1
    have hnd' : (rest.map (fun p => p.2.position)).Nodup := (List.nodup_cons.mp hnd2).2
    have hfresh' : ∀ p ∈ rest,
        p.2.position ∉ (d ++ [(s.position, site_age nn dates er t s)]).map Prod.fst := by
      intro p hp hmem
      rw [List.map_append] at hmem
      rcases List.mem_append.mp hmem with hmem | hmem
      · exact hfresh p (List.mem_cons_of_mem _ hp) hmem
      · have : p.2.position = s.position := by simpa using hmem
        exact hhead (List.mem_map.mpr ⟨p, hp, this⟩)
    rw [List.foldl_cons]
    rw [mut_fold nn dates er t s.position s.mutations d ⊥]
    rw [show (((s.mutations.filter (mutKept nn er t)).map
        (fun m => ((mut_age nn dates t m : ℝ) : WithBot ℝ))).foldl max ⊥) =
        site_age nn dates er t s from rfl]
    rw [dictSet_fresh d s.position _ hfr]
    rw [pairs_fold nn dates er rest (d ++ [(s.position, site_age nn dates er t s)])
      hfresh' hnd']
    simp [List.append_assoc]

theorem get_mut_ages_dict_eq_pairs_fold (ts : TS) (dates : ℤ → ℝ) (er : Bool) :
    get_mut_ages_dict ts dates er =
      (sitePairs ts).foldl (fun d p =>
        p.2.mutations.foldl (site_step ts.num_nodes dates er p.1 p.2.position)
          (dictSet d p.2.position ⊥)) [] := by
  simp only [get_mut_ages_dict, sitePairs, List.foldl_flatten, List.foldl_map]

/-- C1 counterexample: on a genealogy whose only site (position 5) has no
mutation, `get_mut_ages_dict` still returns an entry for that position,
with value `-inf` - so the returned mapping does not contain real-valued
ages for exactly the positions at which at least one mutation exists. -/
theorem get_mut_ages_dict_cex :
    get_mut_ages_dict tsNoMut (fun _ => 0) false = [((5 : ℚ), (⊥ : WithBot ℝ))] ∧
      ∀ t ∈ tsNoMut.trees, ∀ s ∈ t.sites, s.mutations = [] := by
  constructor
  · rfl
  · intro t ht s hs
    simp only [tsNoMut, List.mem_singleton] at ht
    subst ht
    simp only [List.mem_singleton] at hs
    subst hs
    rfl

/-- C1 amended: for every genealogy whose site positions are distinct (as
tskit guarantees) and every node-date array, `get_mut_ages_dict` returns
one entry per site, in visit order: the key is the site's position and the
value is the maximum, over the mutations kept at that site, of the
geometric mean of the mutation-node date and the local-tree-parent date,
starting from `-inf` (so a site with no mutations is mapped to `-inf`
rather than omitted). -/
theorem get_mut_ages_dict_characterization (ts : TS) (dates : ℤ → ℝ) (er : Bool)
    (hnd : ((sitePairs ts).map (fun p => p.2.position)).Nodup) :
    get_mut_ages_dict ts dates er =
      (sitePairs ts).map
        (fun p => (p.2.position, site_age ts.num_nodes dates er p.1 p.2)) := by
  rw [get_mut_ages_dict_eq_pairs_fold]
  have h := pairs_fold ts.num_nodes dates er (sitePairs ts) [] (by simp) hnd
  simpa using h

/-- Witness for `get_mut_ages_dict_characterization` on a one-site,
one-mutation genealogy. -/
theorem get_mut_ages_dict_characterization_witness :
    ((sitePairs tsOneMut).map (fun p => p.2.position)).Nodup ∧
      get_mut_ages_dict tsOneMut (fun _ => 1) false =
        (sitePairs tsOneMut).map
          (fun p => (p.2.position, site_age tsOneMut.num_nodes (fun _ => 1) false p.1 p.2)) :=
  ⟨by decide, get_mut_ages_dict_characterization tsOneMut (fun _ => 1) false (by decide)⟩

theorem mut_fold_exclude (nn : ℕ) (dates : ℤ → ℝ) (t : LocalTree) (pos : ℚ) :
    ∀ (muts : List Mut) (d : List (ℚ × WithBot ℝ)),
      muts.foldl (site_step nn dates true t pos) d =
        (muts.filter (mutKept nn true t)).foldl (site_step nn dates false t pos) d
  | [], _ => rfl
  | m :: rest, d => by
    by_cases hP : t.parent m.node = (nn : ℤ) - 1
    · have hstep : site_step nn dates true t pos d m = d := by
        rw [site_step_eq, if_pos ⟨rfl, hP⟩]
      have hkept : ¬(mutKept nn true t m = true) := by simp [mutKept, hP]
      rw [List.foldl_cons, hstep, List.filter_cons, if_neg hkept]
      exact mut_fold_exclude nn dates t pos rest d
    · have hstep : site_step nn dates true t pos d m = site_step nn dates false t pos d m := by
        rw [site_step_eq, site_step_eq]
        rw [if_neg (show ¬(true = true ∧ t.parent m.node = (nn : ℤ) - 1) from fun h => hP h.2)]
        rw [if_neg (show ¬(false = true ∧ t.parent m.node = (nn : ℤ) - 1) from fun h => hP h.2)]
      have hkept : mutKept nn true t m = true := by
        simp only [mutKept, decide_eq_true_eq]
        exact fun h => hP h.2
      rw [List.foldl_cons, hstep, List.filter_cons, if_pos hkept, List.foldl_cons]
      exact mut_fold_exclude nn dates t pos rest _

/-- C7 amended: `get_mut_ages_dict` with `exclude_root=True` excludes from
the per-site aggregation exactly the mutations whose local-tree parent is
node `num_nodes - 1` (the highest-numbered node), not the mutations whose
parent is the current tree's root: it agrees with running the default mode
on the genealogy from which precisely those mutations were removed. -/
theorem get_mut_ages_dict_exclude (ts : TS) (dates : ℤ → ℝ) :
    get_mut_ages_dict ts dates true = get_mut_ages_dict (dropLastNodeMuts ts) dates false := by
  have hfun : ∀ (t : LocalTree) (d : List (ℚ × WithBot ℝ)),
      t.sites.foldl (fun d s =>
        s.mutations.foldl (site_step ts.num_nodes dates true t s.position)
          (dictSet d s.position ⊥)) d =
      (t.sites.map (fun s =>
          { s with mutations := s.mutations.filter (mutKept ts.num_nodes true t) })).foldl
        (fun d s =>
          s.mutations.foldl (site_step ts.num_nodes dates false t s.position)
            (dictSet d s.position ⊥)) d := by
    intro t d
    rw [List.foldl_map]
    congr 1
    funext d s
    exact mut_fold_exclude ts.num_nodes dates t s.position s.mutations _
  unfold get_mut_ages_dict dropLastNodeMuts
  dsimp only
  rw [List.foldl_map]
  congr 1
  funext d t
  exact hfun t d

/-- C7 counterexample: in `tsRootZero` the only mutation sits on node 1,
whose local-tree parent is node 0, the tree's root (node 0 has no parent);
yet with `exclude_root=True` the mutation is still aggregated - the site's
value is the mutation's geometric-mean age 1, not `-inf` - because the
code compares the parent with `num_nodes - 1 = 2`, not with the root. -/
theorem get_mut_ages_dict_exclude_cex :
    treeRootZero.parent 0 = -1 ∧ treeRootZero.parent 1 = 0 ∧
      (treeRootZero.sites.map Site.mutations) = [[{ node := 1 }]] ∧
      get_mut_ages_dict tsRootZero (fun _ => 1) true =
        [((1 : ℚ), ((1 : ℝ) : WithBot ℝ))] := by
  refine ⟨rfl, rfl, rfl, ?_⟩
  have hsqrt : Real.sqrt ((1 : ℝ) * 1) = 1 := by rw [one_mul, Real.sqrt_one]
  simp only [get_mut_ages_dict, tsRootZero, treeRootZero, List.foldl_cons, List.foldl_nil]
  rw [show dictSet [] 1 ⊥ = [((1 : ℚ), (⊥ : WithBot ℝ))] from rfl]
  rw [site_step_eq]
  rw [if_neg (by norm_num)]
  rw [show dictGet [((1 : ℚ), (⊥ : WithBot ℝ))] 1 = ⊥ from rfl]
  rw [show (mut_age 3 (fun _ => 1)
      { nn := 3, parent := fun v => if v = 0 then -1 else 0, time := fun _ => 0,
        sites := [{ position := 1, mutations := [{ node := 1 }] }] }
      { node := 1 } : ℝ) = 1 from by
    simp [mut_age, npIndex, hsqrt]]
  rw [if_pos (by exact WithBot.bot_lt_coe 1)]
  rfl

theorem foldl_max_of_le : ∀ (L : List (WithBot ℝ)) (b : WithBot ℝ),
    (∀ x ∈ L, x ≤ b) → L.foldl max b = b
  | [], _, _ => rfl
  | x :: L, b, h => by
    rw [List.foldl_cons, max_eq_left (h x (List.mem_cons_self _ _))]
    exact foldl_max_of_le L b (fun y hy => h y (List.mem_cons_of_mem _ hy))

theorem find_first_sorted_max :
    ∀ (l : List (ℤ × WithBot ℝ)), l.Sorted (fun a b => b.2 ≤ a.2) → ∀ k : ℤ,
      k ∈ l.map Prod.fst →
      ((l.find? (fun r => decide (r.1 = k))).map Prod.snd).getD ⊥ =
        ((l.filter (fun r => decide (r.1 = k))).map Prod.snd).foldl max ⊥
  | [], _, k, hk => absurd hk (by simp)
  | p :: rest, hs, k, hk => by
    by_cases hp : p.1 = k
    · rw [List.find?_cons_of_pos _ (by simp [hp]), List.filter_cons, if_pos (by simp [hp]),
        List.map_cons, List.foldl_cons]
      have hle : ∀ x ∈ (rest.filter (fun r => decide (r.1 = k))).map Prod.snd, x ≤ p.2 := by
        intro x hx
        obtain ⟨r, hr, rfl⟩ := List.mem_map.mp hx
        exact List.rel_of_sorted_cons hs r (List.mem_of_mem_filter hr)
      rw [show max ⊥ p.2 = p.2 from max_eq_right bot_le, foldl_max_of_le _ p.2 hle]
      rfl
    · rw [List.find?_cons_of_neg _ (by simp [hp]), List.filter_cons, if_neg (by simp [hp])]
      have hk' : k ∈ rest.map Prod.fst := by
        rcases List.mem_map.mp hk with ⟨r, hr, hrk⟩
        rcases List.mem_cons.mp hr with rfl | hr'
        · exact absurd hrk hp
        · exact List.mem_map.mpr ⟨r, hr', hrk⟩
      exact find_first_sorted_max rest hs.of_cons k hk'

/-- C4: `get_mut_pos_df` is deterministic and resolves duplicate rounded
positions by the documented tie-break: its output equals the canonical
table that lists each rounded position once, in ascending order, paired
with the maximum age among the rows at that position (the first row of the
stable descending-by-age sort). Being a pure function of its inputs, two
runs on the same genealogy and node dates yield this same table. -/
theorem get_mut_pos_df_deterministic_max (ts : TS) (dates : ℤ → ℝ) (exclude_root : Bool) :
    get_mut_pos_df ts dates exclude_root = groupMaxTable (mutPosRows ts dates exclude_root) := by
  simp only [get_mut_pos_df, groupMaxTable, mutPosRows]
  apply List.map_congr_left
  intro k hk
  rw [Finset.mem_sort] at hk
  have hk' := List.mem_toFinset.mp hk
  have hperm := List.perm_insertionSort (fun a b : ℤ × WithBot ℝ => b.2 ≤ a.2)
    ((get_mut_ages_dict ts dates exclude_root).map (fun p => (pyRound p.1, p.2)))
  have hsorted := List.sorted_insertionSort (fun a b : ℤ × WithBot ℝ => b.2 ≤ a.2)
    ((get_mut_ages_dict ts dates exclude_root).map (fun p => (pyRound p.1, p.2)))
  have hk2 := (hperm.map Prod.fst).mem_iff.mpr hk'
  have hmain := find_first_sorted_max _ hsorted k hk2
  have hperm2 := (hperm.filter (fun r => decide (r.1 = k))).map Prod.snd
  have htrans : (((List.insertionSort (fun a b : ℤ × WithBot ℝ => b.2 ≤ a.2)
        ((get_mut_ages_dict ts dates exclude_root).map (fun p => (pyRound p.1, p.2)))).filter
          (fun r => decide (r.1 = k))).map Prod.snd).foldl max ⊥ =
      ((((get_mut_ages_dict ts dates exclude_root).map (fun p => (pyRound p.1, p.2))).filter
          (fun r => decide (r.1 = k))).map Prod.snd).foldl max ⊥ :=
    hperm2.foldl_eq ⊥
  rw [hmain, htrans]

end TsdateEval
